import Mathlib

/-!
Verification of the `music_essentials` repository (modules `interval.py` and
`chord.py`).  Python strings are modelled as `List Char`; the Python builtins
used by the source (`int(...)`, `str.replace`, `str.startswith`, `str(...)` on
integers) are modelled explicitly below.  Python exceptions (`TypeError`,
`ValueError`, `IndexError`) are modelled by an error type, and every fallible
operation returns `Except`.
-/

namespace MusicEssentials

/-- Model of the whitespace class stripped by the Python builtin `int(str)`
(ASCII fragment). -/
def pyIsSpace (c : Char) : Bool :=
  c == ' ' || c == '\t' || c == '\n' || c == '\r'

/-- Model of Python `str.strip()` as applied by `int(str)`. -/
def pyTrim (l : List Char) : List Char :=
  ((l.dropWhile pyIsSpace).reverse.dropWhile pyIsSpace).reverse

/-- Digit accumulator for the model of Python `int(str)`: consumes decimal
digits, allowing a single underscore between two digits (Python 3 numeric
literal grouping). -/
def pyDigitsAux : List Char → Nat → Option Nat
  | [], acc => some acc
  | c :: rest, acc =>
    if c.isDigit then pyDigitsAux rest (acc * 10 + (c.toNat - 48))
    else if c = '_' then
      match rest with
      | [] => none
      | d :: rest2 =>
        if d.isDigit then pyDigitsAux rest2 (acc * 10 + (d.toNat - 48)) else none
    else none

/-- Model of the digit-sequence part of Python `int(str)`: a nonempty digit
string, underscores only between digits. -/
def pyDigits : List Char → Option Nat
  | [] => none
  | c :: rest => if c.isDigit then pyDigitsAux rest (c.toNat - 48) else none

/-- Sign handling of the model of Python `int(s)`: an optional leading sign
followed by a digit sequence. -/
def pyIntCore : List Char → Option Int
  | [] => none
  | c :: rest =>
    if c = '+' then (pyDigits rest).map Int.ofNat
    else if c = '-' then (pyDigits rest).map (fun m => -(m : Int))
    else (pyDigits (c :: rest)).map Int.ofNat

/-- Model of the Python builtin `int(s)` for a string `s`: strip whitespace,
optional sign, then a digit sequence.  Returns `none` where Python raises
`ValueError`. -/
def pyInt (l : List Char) : Option Int :=
  pyIntCore (pyTrim l)

/-- Fuel-driven core of the model of Python `str.replace(pat, '')`: removes
every (left-to-right, non-overlapping) occurrence of `pat`.  The fuel is an
upper bound on the scanned length; `pyReplace` supplies enough. -/
def pyReplaceFuel (pat : List Char) : Nat → List Char → List Char
  | _, [] => []
  | 0, l => l
  | fuel + 1, c :: rest =>
    if pat ≠ [] ∧ pat.isPrefixOf (c :: rest) then
      pyReplaceFuel pat fuel ((c :: rest).drop pat.length)
    else c :: pyReplaceFuel pat fuel rest

/-- Model of Python `s.replace(pat, '')`: delete all occurrences of `pat`
from `s`. -/
def pyReplace (pat s : List Char) : List Char :=
  pyReplaceFuel pat s.length s

/-- Decimal digit characters, used to model Python `str(n)`. -/
def digitChar : Nat → Char
  | 0 => '0'
  | 1 => '1'
  | 2 => '2'
  | 3 => '3'
  | 4 => '4'
  | 5 => '5'
  | 6 => '6'
  | 7 => '7'
  | 8 => '8'
  | 9 => '9'
  | _ => '*'

/-- Fuel-driven core of the model of Python `str(n)` for a nonnegative
integer: most-significant-first decimal digits. -/
def natStrFuel : Nat → Nat → List Char
  | 0, _ => []
  | fuel + 1, n =>
    if n < 10 then [digitChar n]
    else natStrFuel fuel (n / 10) ++ [digitChar (n % 10)]

/-- Model of Python `str(n)` for `n : Nat`. -/
def natStr (n : Nat) : List Char :=
  natStrFuel (n + 1) n

/-- Model of Python `str(n)` for `n : Int`. -/
def intStr (n : Int) : List Char :=
  if n < 0 then '-' :: natStr (-n).toNat else natStr n.toNat

/-- Python exception kinds raised by the sources: `TypeError`, `ValueError`
and `IndexError`. -/
inductive PyErr where
  | typeError : PyErr
  | valueError : PyErr
  | indexError : PyErr
deriving DecidableEq

/-! ## Interval (`interval.py`) -/

/-- `Interval.NAMED_INTERVAL_TYPES` from `interval.py` line 4:
`('M', 'm', 'P', 'dim', 'aug')`. -/
def NAMED_INTERVAL_TYPES : List (List Char) :=
  [['M'], ['m'], ['P'], ['d', 'i', 'm'], ['a', 'u', 'g']]

/-- `Interval.VALID_INTERVAL_TYPES` from `interval.py` lines 7-9: the 25
valid non-compound interval tokens. -/
def VALID_INTERVAL_TYPES : List (List Char) :=
  [['d', 'i', 'm', '1'], ['P', '1'], ['a', 'u', 'g', '1'],
   ['d', 'i', 'm', '2'], ['m', '2'], ['a', 'u', 'g', '2'], ['M', '2'],
   ['d', 'i', 'm', '3'], ['m', '3'], ['M', '3'], ['a', 'u', 'g', '3'],
   ['d', 'i', 'm', '4'], ['P', '4'], ['a', 'u', 'g', '4'],
   ['d', 'i', 'm', '5'], ['P', '5'], ['a', 'u', 'g', '5'],
   ['d', 'i', 'm', '6'], ['m', '6'], ['M', '6'], ['a', 'u', 'g', '6'],
   ['d', 'i', 'm', '7'], ['m', '7'], ['M', '7'], ['a', 'u', 'g', '7']]

/-- An interval value: `interval_type` and `size` as stored by
`Interval.__init__` (`interval.py` lines 92-93). -/
structure Interval where
  interval_type : List Char
  size : Int
deriving DecidableEq

/-- Fuel-driven form of the `while base_size >= 8: base_size -= 7` loop of
`Interval.__init__` (`interval.py` lines 82-83).  The fuel is an upper bound
on the iteration count; `baseSizeOf` supplies enough. -/
def reduceBaseFuel : Nat → Nat → Nat
  | 0, b => b
  | fuel + 1, b => if 8 ≤ b then reduceBaseFuel fuel (b - 7) else b

/-- Compound-interval reduction of `Interval.__init__` (`interval.py` lines
80-86): for `size ≥ 8`, start from `size - 7` and subtract 7 while the result
is still `≥ 8`; smaller sizes are kept as is. -/
def baseSizeOf (n : Nat) : Nat :=
  if 8 ≤ n then reduceBaseFuel (n - 7) (n - 7) else n

/-- `Interval.__init__` (`interval.py` lines 30-93) for an integer `size`
argument.  The `isinstance(interval_type, str)` check and the
`int(size)` / `'.' in str(size)` checks are vacuous on this typed path and
the type checks are discharged by the embedding's types. -/
def Interval.init (t : List Char) (size : Int) : Except PyErr Interval :=
  if t ∈ NAMED_INTERVAL_TYPES then
    if 0 < size then
      let istr :=
        if 8 ≤ size then t ++ natStr (baseSizeOf size.toNat)
        else t ++ natStr size.toNat
      if istr ∈ VALID_INTERVAL_TYPES then .ok { interval_type := t, size := size }
      else .error .valueError
    else .error .valueError
  else .error .valueError

/-- `Interval.__init__` (`interval.py` lines 30-93) for a string `size`
argument, the path exercised by `from_interval_string`: `int(size)` must
succeed (`TypeError` otherwise), `str(size)` (the string itself) must not
contain a dot, the value must be positive, and the validity token uses
`str(base_size)` for compound sizes but the *original string* for sizes
below 8 (the source appends `str(size)` there). -/
def Interval.initStr (t : List Char) (sizeStr : List Char) : Except PyErr Interval :=
  if t ∈ NAMED_INTERVAL_TYPES then
    match pyInt sizeStr with
    | none => .error .typeError
    | some n =>
      if '.' ∈ sizeStr then .error .typeError
      else if 0 < n then
        let istr :=
          if 8 ≤ n then t ++ natStr (baseSizeOf n.toNat)
          else t ++ sizeStr
        if istr ∈ VALID_INTERVAL_TYPES then .ok { interval_type := t, size := n }
        else .error .valueError
      else .error .valueError
  else .error .valueError

/-- Loop body of `Interval.from_interval_string` (`interval.py` lines
138-145): try each named type in order as a prefix; on the first match,
construct from the type and the string with all occurrences of the type
removed (`str.replace`). -/
def findIntervalType : List (List Char) → List Char → Except PyErr Interval
  | [], _ => .error .valueError
  | t :: ts, s =>
    if t.isPrefixOf s then Interval.initStr t (pyReplace t s)
    else findIntervalType ts s

/-- `Interval.from_interval_string` (`interval.py` lines 95-145). -/
def Interval.from_interval_string (s : List Char) : Except PyErr Interval :=
  findIntervalType NAMED_INTERVAL_TYPES s

/-- `Interval.__str__` (`interval.py` lines 147-157):
`self.interval_type + str(self.size)`. -/
def Interval.str (i : Interval) : List Char :=
  i.interval_type ++ intStr i.size

/-! ## Note (external collaborator) -/

/-- Modelled from the spec: `Note` is an external collaborator ("an ordered,
comparable pitch value with a letter name, accidental, and octave"); its
module is not among the sources.  The constructor argument order follows the
call `Note(pitch, octave, accidental)` in `chord.py` line 122. -/
structure Note where
  pitch : Char
  octave : Int
  accidental : Option (List Char)
deriving DecidableEq

/-- Modelled from the spec: semitone value of a pitch letter within one
octave, used to give `Note` its total order by pitch. -/
def pitchSemis : Char → Int
  | 'C' => 0
  | 'D' => 2
  | 'E' => 4
  | 'F' => 5
  | 'G' => 7
  | 'A' => 9
  | 'B' => 11
  | _ => 0

/-- Modelled from the spec: semitone shift contributed by an accidental. -/
def accSemis : Option (List Char) → Int
  | none => 0
  | some a =>
    if a = ['#'] then 1
    else if a = ['#', '#'] then 2
    else if a = ['b'] then -1
    else if a = ['b', 'b'] then -2
    else 0

/-- Modelled from the spec: the pitch value by which `Note`s are totally
ordered ("totally ordered by pitch"). -/
def noteVal (n : Note) : Int :=
  12 * n.octave + pitchSemis n.pitch + accSemis n.accidental

/-- Modelled from the spec: the pitch order on `Note` (`<=` in Python). -/
def noteLe (a b : Note) : Prop :=
  noteVal a ≤ noteVal b

instance : DecidableRel noteLe :=
  fun a b => inferInstanceAs (Decidable (noteVal a ≤ noteVal b))

/-- Boolean form of "y is at or below x in pitch", the predicate that
describes where `Chord.add_note`'s scan stops. -/
def pLe (x y : Note) : Bool :=
  decide (noteVal y ≤ noteVal x)

/-! ## Chord (`chord.py`) -/

/-- Association-list lookup modelling Python `dict` key lookup for the two
static tables of `chord.py` (all keys are distinct, so order is
irrelevant). -/
def alist {α : Type} : List (List Char × α) → List Char → Option α
  | [], _ => none
  | (k, v) :: rest, key => if key = k then some v else alist rest key

/-- `Chord._CHORD_PATTERNS` (`chord.py` lines 12-20): every chord quality
keyword maps to the offset tuple `(2, 4)`. -/
def CHORD_PATTERNS : List (List Char × List Nat) :=
  [(['m', 'a', 'j', 'o', 'r'], [2, 4]),
   (['m', 'a', 'j'], [2, 4]),
   (['m', 'i', 'n', 'o', 'r'], [2, 4]),
   (['m', 'i', 'n'], [2, 4])]

/-- `Chord._CHORD_NUM_SCALE_INDEX` (`chord.py` lines 22-30). -/
def CHORD_NUM_SCALE_INDEX : List (List Char × Nat) :=
  [(['I'], 0), (['I', 'I'], 1), (['I', 'I', 'I'], 2), (['I', 'V'], 3),
   (['V'], 4), (['V', 'I'], 5), (['V', 'I', 'I'], 6), (['V', 'I', 'I', 'I'], 7)]

/-- A chord: the `notes` list of `chord.py`.  Nonemptiness is structural
because the only constructor (`Chord.__init__`, line 64) seeds the list with
one note and no operation removes notes; `root()` (line 142) reads
`notes[0]`. -/
structure Chord where
  notes : List Note
  ne : notes ≠ []

/-- `Chord.__init__` (`chord.py` lines 32-64): a chord with a single note.
The `isinstance(root_note, Note)` check is discharged by the embedding's
types. -/
def Chord.ofRoot (n : Note) : Chord :=
  ⟨[n], by simp⟩

/-- `Chord.root` (`chord.py` lines 126-142): `self.notes[0]`. -/
def Chord.root (c : Chord) : Note :=
  c.notes.head c.ne

/-- Scan loop of `Chord.add_note` (`chord.py` lines 173-178): walk adjacent
pairs; insert after the first element `a` with `a <= new < b`; append when
the scan is exhausted. -/
def scanInsert (x : Note) : List Note → List Note
  | [] => [x]
  | [a] => [a, x]
  | a :: b :: rest =>
    if noteVal a ≤ noteVal x ∧ noteVal x < noteVal b then a :: x :: b :: rest
    else a :: scanInsert x (b :: rest)

/-- `Chord.add_note` (`chord.py` lines 144-178) on the underlying list: a
note below the root is prepended, otherwise the pair scan runs. -/
def addNoteList (x : Note) : List Note → List Note
  | [] => [x]
  | r :: rest =>
    if noteVal x < noteVal r then x :: r :: rest
    else scanInsert x (r :: rest)

/-- `Chord.add_note` (`chord.py` lines 144-178).  The
`isinstance(new_note, Note)` check is discharged by the embedding's types. -/
def Chord.add_note (c : Chord) (x : Note) : Chord :=
  ⟨addNoteList x c.notes, by
    cases c.notes with
    | nil => simp [addNoteList]
    | cons r rest =>
      simp only [addNoteList]
      split
      · simp
      · cases rest with
        | nil => simp [scanInsert]
        | cons b bs =>
          simp only [scanInsert]
          split <;> simp⟩

/-- Loop body of `Chord.build_chord` (`chord.py` lines 115-122): offset the
root index, wrap past the end of the scale into the next octave, and rebuild
the note with the adjusted octave.  `none` models the `IndexError` Python
would raise on an out-of-range scale index. -/
def chordTone (s : List Note) (rootIdx off : Nat) : Option Note :=
  let nextIdx := rootIdx + off
  let idx := if s.length - 1 < nextIdx then nextIdx - (s.length - 1) else nextIdx
  let od : Int := if s.length - 1 < nextIdx then 1 else 0
  (s[idx]?).map fun nn => { pitch := nn.pitch, octave := nn.octave + od, accidental := nn.accidental }

/-- Iteration of the `for index_diff in Chord._CHORD_PATTERNS[chord_type]`
loop of `Chord.build_chord` (`chord.py` lines 115-122). -/
def addTones (s : List Note) (rootIdx : Nat) (c : Chord) : List Nat → Except PyErr Chord
  | [] => .ok c
  | off :: offs =>
    match chordTone s rootIdx off with
    | none => .error .indexError
    | some nn => addTones s rootIdx (c.add_note nn) offs

/-- `Chord.build_chord` (`chord.py` lines 66-124), parameterised by the
external `Scale.build_scale` collaborator (modelled from the spec as a
function returning the scale's note list).  The `isinstance(tonic_key, Note)`
check is discharged by the embedding's types; the two key checks mirror
lines 106-109 and the `ValueError`s raised there. -/
def build_chord (scale : Note → List Char → List Note) (tonic : Note)
    (chordNum chordType : List Char) : Except PyErr Chord :=
  match alist CHORD_NUM_SCALE_INDEX chordNum with
  | none => .error .valueError
  | some rootIdx =>
    match alist CHORD_PATTERNS chordType with
    | none => .error .valueError
    | some pat =>
      let s := scale tonic chordType
      match s[rootIdx]? with
      | none => .error .indexError
      | some root => addTones s rootIdx (Chord.ofRoot root) pat

/-! ## Lemmas about the compound-size reduction -/

theorem reduceBaseFuel_eq (fuel : Nat) : ∀ b : Nat, 1 ≤ b → b ≤ fuel →
    reduceBaseFuel fuel b = (b - 1) % 7 + 1 := by
  induction fuel with
  | zero => intro b h1 h2; omega
  | succ f ih =>
    intro b h1 h2
    rw [reduceBaseFuel]
    by_cases h8 : 8 ≤ b
    · rw [if_pos h8, ih (b - 7) (by omega) (by omega)]
      omega
    · rw [if_neg h8]
      omega

theorem baseSizeOf_eq (n : Nat) (h : 1 ≤ n) : baseSizeOf n = (n - 1) % 7 + 1 := by
  unfold baseSizeOf
  by_cases h8 : 8 ≤ n
  · rw [if_pos h8, reduceBaseFuel_eq (n - 7) (n - 7) (by omega) (by omega)]
    omega
  · rw [if_neg h8]
    omega

theorem baseSizeOf_bounds (n : Nat) (h : 1 ≤ n) :
    1 ≤ baseSizeOf n ∧ baseSizeOf n ≤ 7 := by
  rw [baseSizeOf_eq n h]
  omega

theorem baseSizeOf_small (n : Nat) (h : n < 8) : baseSizeOf n = n := by
  unfold baseSizeOf
  rw [if_neg (by omega)]

/-! ## Lemmas about the Python string models -/

theorem digitChar_isDigit (k : Nat) (h : k < 10) : (digitChar k).isDigit = true := by
  interval_cases k <;> decide

theorem digitChar_toNat (k : Nat) (h : k < 10) : (digitChar k).toNat - 48 = k := by
  interval_cases k <;> decide

theorem natStrFuel_spec (fuel : Nat) : ∀ n : Nat, n < fuel →
    natStrFuel fuel n ≠ [] ∧ (∀ c ∈ natStrFuel fuel n, c.isDigit = true) ∧
      (natStrFuel fuel n).foldl (fun a c => a * 10 + (c.toNat - 48)) 0 = n := by
  induction fuel with
  | zero => intro n h; omega
  | succ f ih =>
    intro n h
    rw [natStrFuel]
    by_cases h10 : n < 10
    · rw [if_pos h10]
      refine ⟨by simp, ?_, ?_⟩
      · intro c hc
        rw [List.mem_singleton] at hc
        subst hc
        exact digitChar_isDigit n h10
      · simp only [List.foldl_cons, List.foldl_nil, Nat.zero_mul, Nat.zero_add]
        exact digitChar_toNat n h10
    · rw [if_neg h10]
      have hdvd : n / 10 < f := by omega
      obtain ⟨hne, hdg, hval⟩ := ih (n / 10) hdvd
      refine ⟨by simp, ?_, ?_⟩
      · intro c hc
        rcases List.mem_append.mp hc with hc | hc
        · exact hdg c hc
        · rw [List.mem_singleton] at hc
          subst hc
          exact digitChar_isDigit (n % 10) (by omega)
      · rw [List.foldl_append, hval]
        simp only [List.foldl_cons, List.foldl_nil]
        rw [digitChar_toNat (n % 10) (by omega)]
        omega

theorem natStr_spec (n : Nat) :
    natStr n ≠ [] ∧ (∀ c ∈ natStr n, c.isDigit = true) ∧
      (natStr n).foldl (fun a c => a * 10 + (c.toNat - 48)) 0 = n :=
  natStrFuel_spec (n + 1) n (by omega)

theorem isDigit_not_space (c : Char) (h : c.isDigit = true) : pyIsSpace c = false := by
  by_contra hs
  rw [Bool.not_eq_false] at hs
  simp only [pyIsSpace, Bool.or_eq_true, beq_iff_eq] at hs
  rcases hs with ((rfl | rfl) | rfl) | rfl <;> exact absurd h (by decide)

theorem dropWhile_space_eq_self (l : List Char) (h : ∀ c ∈ l, pyIsSpace c = false) :
    l.dropWhile pyIsSpace = l := by
  cases l with
  | nil => rfl
  | cons c rest =>
    rw [List.dropWhile_cons, if_neg]
    rw [h c (List.mem_cons_self c rest)]
    simp

theorem pyTrim_eq_self (l : List Char) (h : ∀ c ∈ l, pyIsSpace c = false) :
    pyTrim l = l := by
  unfold pyTrim
  rw [dropWhile_space_eq_self l h,
    dropWhile_space_eq_self l.reverse (fun c hc => h c (List.mem_reverse.mp hc)),
    List.reverse_reverse]

theorem pyDigitsAux_spec (l : List Char) (hdg : ∀ c ∈ l, c.isDigit = true) :
    ∀ acc : Nat, pyDigitsAux l acc =
      some (l.foldl (fun a c => a * 10 + (c.toNat - 48)) acc) := by
  induction l with
  | nil => intro acc; rfl
  | cons c rest ih =>
    intro acc
    have hc := hdg c (List.mem_cons_self c rest)
    rw [pyDigitsAux.eq_def]
    simp only [hc, if_true, List.foldl_cons]
    exact ih (fun d hd => hdg d (List.mem_cons_of_mem c hd)) (acc * 10 + (c.toNat - 48))

theorem pyDigits_spec (l : List Char) (hne : l ≠ []) (hdg : ∀ c ∈ l, c.isDigit = true) :
    pyDigits l = some (l.foldl (fun a c => a * 10 + (c.toNat - 48)) 0) := by
  cases l with
  | nil => exact absurd rfl hne
  | cons c rest =>
    rw [pyDigits, if_pos (hdg c (List.mem_cons_self c rest)),
      pyDigitsAux_spec rest (fun d hd => hdg d (List.mem_cons_of_mem c hd)) (c.toNat - 48)]
    simp

theorem pyInt_eq_digits (l : List Char) (hne : l ≠ []) (hdg : ∀ c ∈ l, c.isDigit = true) :
    pyInt l = (pyDigits l).map Int.ofNat := by
  unfold pyInt
  rw [pyTrim_eq_self l (fun c hc => isDigit_not_space c (hdg c hc))]
  cases l with
  | nil => exact absurd rfl hne
  | cons c rest =>
    have hc := hdg c (List.mem_cons_self c rest)
    rw [pyIntCore, if_neg (fun heq => absurd hc (by subst heq; decide)),
      if_neg (fun heq => absurd hc (by subst heq; decide))]

theorem pyInt_natStr (n : Nat) : pyInt (natStr n) = some (n : Int) := by
  obtain ⟨hne, hdg, hval⟩ := natStr_spec n
  rw [pyInt_eq_digits (natStr n) hne hdg, pyDigits_spec (natStr n) hne hdg, hval]
  rfl

theorem dot_not_mem_digits (l : List Char) (hdg : ∀ c ∈ l, c.isDigit = true) :
    '.' ∉ l :=
  fun hmem => absurd (hdg '.' hmem) (by decide)

theorem isPrefixOf_append_self (l t : List Char) : l.isPrefixOf (l ++ t) = true := by
  induction l with
  | nil => simp
  | cons c cs ih => simp [List.isPrefixOf_cons₂, ih]

theorem pyReplaceFuel_not_mem (p : Char) (pr : List Char) (fuel : Nat) :
    ∀ l : List Char, l.length ≤ fuel → p ∉ l →
      pyReplaceFuel (p :: pr) fuel l = l := by
  induction fuel with
  | zero =>
    intro l hlen _
    have hl : l = [] := List.length_eq_zero.mp (by omega)
    subst hl
    rfl
  | succ f ih =>
    intro l hlen hp
    cases l with
    | nil => rfl
    | cons c rest =>
      have hrest : rest.length ≤ f := by
        simp only [List.length_cons] at hlen
        omega
      rw [pyReplaceFuel, if_neg, ih rest hrest (fun hmem => hp (List.mem_cons_of_mem c hmem))]
      rintro ⟨-, hpre⟩
      have hcp : (p == c) = true ∧ pr.isPrefixOf rest = true := by
        simpa [List.isPrefixOf_cons₂] using hpre
      exact hp (by rw [beq_iff_eq.mp hcp.1]; exact List.mem_cons_self c rest)

theorem pyReplace_strip (p : Char) (pr rest : List Char) (hp : p ∉ rest) :
    pyReplace (p :: pr) ((p :: pr) ++ rest) = rest := by
  unfold pyReplace
  have hcons : (p :: pr) ++ rest = p :: (pr ++ rest) := rfl
  rw [hcons]
  rw [List.length_cons, pyReplaceFuel, if_pos]
  · have hdrop : (p :: (pr ++ rest)).drop (p :: pr).length = rest := by
      rw [← hcons, List.drop_left]
    rw [hdrop]
    exact pyReplaceFuel_not_mem p pr (pr ++ rest).length rest
      (by rw [List.length_append]; omega) hp
  · exact ⟨by simp, by rw [← hcons]; exact isPrefixOf_append_self (p :: pr) rest⟩

/-! ## Characterisations of the Interval constructors -/

theorem Interval.init_ok_iff (t : List Char) (size : Int) (i : Interval) :
    Interval.init t size = .ok i ↔
      t ∈ NAMED_INTERVAL_TYPES ∧ 0 < size ∧
        (t ++ natStr (baseSizeOf size.toNat)) ∈ VALID_INTERVAL_TYPES ∧
        i = ⟨t, size⟩ := by
  simp only [Interval.init]
  split_ifs with h1 h2 h8 hv hv
  · simp only [Except.ok.injEq]
    constructor
    · intro hi
      exact ⟨h1, h2, hv, hi.symm⟩
    · rintro ⟨-, -, -, rfl⟩
      rfl
  · constructor
    · intro hi
      exact absurd hi (by simp)
    · rintro ⟨-, -, hm, -⟩
      exact absurd hm hv
  · have hb : baseSizeOf size.toNat = size.toNat := baseSizeOf_small size.toNat (by omega)
    constructor
    · intro hi
      simp only [Except.ok.injEq] at hi
      exact ⟨h1, h2, by rw [hb]; exact hv, hi.symm⟩
    · rintro ⟨-, -, -, rfl⟩
      rfl
  · have hb : baseSizeOf size.toNat = size.toNat := baseSizeOf_small size.toNat (by omega)
    constructor
    · intro hi
      exact absurd hi (by simp)
    · rintro ⟨-, -, hm, -⟩
      rw [hb] at hm
      exact absurd hm hv
  · constructor
    · intro hi
      exact absurd hi (by simp)
    · rintro ⟨-, hp, -, -⟩
      exact absurd hp h2
  · constructor
    · intro hi
      exact absurd hi (by simp)
    · rintro ⟨hn, -, -, -⟩
      exact absurd hn h1

theorem initStr_none (t sizeStr : List Char) (h : pyInt sizeStr = none) :
    Interval.initStr t sizeStr =
      if t ∈ NAMED_INTERVAL_TYPES then .error .typeError else .error .valueError := by
  unfold Interval.initStr
  rw [h]

theorem initStr_some (t sizeStr : List Char) (n : Int) (h : pyInt sizeStr = some n) :
    Interval.initStr t sizeStr =
      if t ∈ NAMED_INTERVAL_TYPES then
        if '.' ∈ sizeStr then .error .typeError
        else if 0 < n then
          if (if 8 ≤ n then t ++ natStr (baseSizeOf n.toNat) else t ++ sizeStr)
              ∈ VALID_INTERVAL_TYPES then .ok ⟨t, n⟩
          else .error .valueError
        else .error .valueError
      else .error .valueError := by
  unfold Interval.initStr
  rw [h]

theorem initStr_ok_iff (t sizeStr : List Char) (i : Interval) :
    Interval.initStr t sizeStr = .ok i ↔
      t ∈ NAMED_INTERVAL_TYPES ∧ ∃ n : Int, pyInt sizeStr = some n ∧
        '.' ∉ sizeStr ∧ 0 < n ∧
        (if 8 ≤ n then t ++ natStr (baseSizeOf n.toNat) else t ++ sizeStr)
          ∈ VALID_INTERVAL_TYPES ∧ i = ⟨t, n⟩ := by
  cases hpi : pyInt sizeStr with
  | none =>
    rw [initStr_none t sizeStr hpi]
    constructor
    · intro h
      split_ifs at h
    · rintro ⟨-, n, hn, -⟩
      exact absurd hn (by simp)
  | some m =>
    rw [initStr_some t sizeStr m hpi]
    constructor
    · intro h
      by_cases h1 : t ∈ NAMED_INTERVAL_TYPES
      case neg => rw [if_neg h1] at h; exact absurd h (by simp)
      rw [if_pos h1] at h
      by_cases hdot : '.' ∈ sizeStr
      case pos => rw [if_pos hdot] at h; exact absurd h (by simp)
      rw [if_neg hdot] at h
      by_cases h0 : 0 < m
      case neg => rw [if_neg h0] at h; exact absurd h (by simp)
      rw [if_pos h0] at h
      by_cases hv : (if 8 ≤ m then t ++ natStr (baseSizeOf m.toNat) else t ++ sizeStr)
          ∈ VALID_INTERVAL_TYPES
      case neg => rw [if_neg hv] at h; exact absurd h (by simp)
      rw [if_pos hv] at h
      simp only [Except.ok.injEq] at h
      exact ⟨h1, m, rfl, hdot, h0, hv, h.symm⟩
    · rintro ⟨h1, n, hn, hdot, h0, hv, rfl⟩
      injection hn with hn
      subst hn
      rw [if_pos h1, if_neg hdot, if_pos h0, if_pos hv]

theorem initStr_natStr (t : List Char) (size : Int) (h2 : 0 < size) :
    Interval.initStr t (natStr size.toNat) = Interval.init t size := by
  obtain ⟨hne, hdg, -⟩ := natStr_spec size.toNat
  have hp : pyInt (natStr size.toNat) = some size := by
    rw [pyInt_natStr size.toNat, Int.toNat_of_nonneg (le_of_lt h2)]
  rw [initStr_some t (natStr size.toNat) size hp]
  unfold Interval.init
  by_cases h1 : t ∈ NAMED_INTERVAL_TYPES
  · rw [if_pos h1, if_pos h1, if_neg (dot_not_mem_digits (natStr size.toNat) hdg)]
  · rw [if_neg h1, if_neg h1]

/-! ## Lemmas about chord insertion -/

theorem pLe_iff (x y : Note) : pLe x y = true ↔ noteVal y ≤ noteVal x := by
  simp [pLe]

theorem pLe_false_iff (x y : Note) : pLe x y = false ↔ noteVal x < noteVal y := by
  simp [pLe]

theorem scanInsert_eq_take_drop (x : Note) :
    ∀ (a : Note) (l : List Note), noteVal a ≤ noteVal x →
      scanInsert x (a :: l) =
        (a :: l).takeWhile (pLe x) ++ x :: (a :: l).dropWhile (pLe x) := by
  intro a l
  induction l generalizing a with
  | nil =>
    intro hax
    rw [scanInsert, List.takeWhile_cons_of_pos ((pLe_iff x a).mpr hax),
      List.dropWhile_cons_of_pos ((pLe_iff x a).mpr hax)]
    rfl
  | cons b bs ih =>
    intro hax
    rw [scanInsert]
    by_cases hxb : noteVal x < noteVal b
    · rw [if_pos ⟨hax, hxb⟩,
        List.takeWhile_cons_of_pos ((pLe_iff x a).mpr hax),
        List.dropWhile_cons_of_pos ((pLe_iff x a).mpr hax),
        List.takeWhile_cons_of_neg (by simp [pLe]; exact hxb),
        List.dropWhile_cons_of_neg (by simp [pLe]; exact hxb)]
      rfl
    · rw [if_neg (fun hc => hxb hc.2), ih b (le_of_not_lt hxb),
        List.takeWhile_cons_of_pos ((pLe_iff x a).mpr hax),
        List.dropWhile_cons_of_pos ((pLe_iff x a).mpr hax)]
      rfl

theorem addNoteList_eq_take_drop (x : Note) (l : List Note) :
    addNoteList x l = l.takeWhile (pLe x) ++ x :: l.dropWhile (pLe x) := by
  cases l with
  | nil => rfl
  | cons r rest =>
    rw [addNoteList]
    by_cases hxr : noteVal x < noteVal r
    · rw [if_pos hxr,
        List.takeWhile_cons_of_neg (by simp [pLe]; exact hxr),
        List.dropWhile_cons_of_neg (by simp [pLe]; exact hxr)]
      rfl
    · rw [if_neg hxr]
      exact scanInsert_eq_take_drop x r rest (le_of_not_lt hxr)

theorem addNoteList_perm (x : Note) (l : List Note) :
    (addNoteList x l).Perm (x :: l) := by
  rw [addNoteList_eq_take_drop]
  have h1 : (l.takeWhile (pLe x) ++ x :: l.dropWhile (pLe x)).Perm
      (x :: (l.takeWhile (pLe x) ++ l.dropWhile (pLe x))) := List.perm_middle
  rw [List.takeWhile_append_dropWhile] at h1
  exact h1

theorem mem_dropWhile_gt (x : Note) (l : List Note) (hs : List.Pairwise noteLe l) :
    ∀ y ∈ l.dropWhile (pLe x), noteVal x < noteVal y := by
  induction l with
  | nil => simp
  | cons a as ih =>
    intro y hy
    rw [List.dropWhile_cons] at hy
    by_cases hpa : pLe x a = true
    · rw [if_pos hpa] at hy
      exact ih hs.of_cons y hy
    · rw [if_neg hpa] at hy
      have hxa : noteVal x < noteVal a :=
        (pLe_false_iff x a).mp (Bool.not_eq_true _ ▸ hpa)
      rcases List.mem_cons.mp hy with rfl | hy
      · exact hxa
      · exact lt_of_lt_of_le hxa ((List.pairwise_cons.mp hs).1 y hy)

theorem addNoteList_pairwise (x : Note) (l : List Note) (hs : List.Pairwise noteLe l) :
    List.Pairwise noteLe (addNoteList x l) := by
  rw [addNoteList_eq_take_drop, List.pairwise_append]
  refine ⟨hs.sublist (List.takeWhile_sublist (pLe x)), ?_, ?_⟩
  · rw [List.pairwise_cons]
    exact ⟨fun y hy => le_of_lt (mem_dropWhile_gt x l hs y hy),
      hs.sublist (List.dropWhile_sublist (pLe x))⟩
  · intro a ha b hb
    have hax : noteVal a ≤ noteVal x := (pLe_iff x a).mp (List.mem_takeWhile_imp ha)
    rcases List.mem_cons.mp hb with rfl | hb
    · exact hax
    · exact le_trans hax (le_of_lt (mem_dropWhile_gt x l hs b hb))

theorem sorted_head_le (l : List Note) (hne : l ≠ []) (hs : List.Pairwise noteLe l) :
    ∀ y ∈ l, noteLe (l.head hne) y := by
  cases l with
  | nil => exact absurd rfl hne
  | cons a as =>
    intro y hy
    rcases List.mem_cons.mp hy with rfl | hy
    · exact le_refl (noteVal y)
    · exact (List.pairwise_cons.mp hs).1 y hy

/-! ## Lemmas about build_chord -/

theorem alist_num_le7 (d : List Char) (k : Nat)
    (h : alist CHORD_NUM_SCALE_INDEX d = some k) : k ≤ 7 := by
  simp only [CHORD_NUM_SCALE_INDEX, alist] at h
  split_ifs at h <;> simp only [Option.some.injEq] at h <;> omega

theorem alist_pat (q : List Char) (pat : List Nat)
    (h : alist CHORD_PATTERNS q = some pat) : pat = [2, 4] := by
  simp only [CHORD_PATTERNS, alist] at h
  split_ifs at h <;> simp only [Option.some.injEq] at h <;> exact h.symm

theorem chordTone_some (s : List Note) (rootIdx off : Nat) (hlen : s.length = 8)
    (hr : rootIdx ≤ 7) (hoff : off ≤ 4) :
    ∃ nn, chordTone s rootIdx off = some nn := by
  simp only [chordTone]
  have hidx : (if s.length - 1 < rootIdx + off then rootIdx + off - (s.length - 1)
      else rootIdx + off) < s.length := by
    rw [hlen]
    split <;> omega
  rw [List.getElem?_eq_getElem hidx]
  exact ⟨_, rfl⟩

theorem addTones_two (s : List Note) (rootIdx : Nat) (c : Chord) (n2 n4 : Note)
    (h2 : chordTone s rootIdx 2 = some n2) (h4 : chordTone s rootIdx 4 = some n4) :
    addTones s rootIdx c [2, 4] = .ok ((c.add_note n2).add_note n4) := by
  simp only [addTones, h2, h4]

theorem build_chord_ok (scale : Note → List Char → List Note) (tonic : Note)
    (d q : List Char) (rootIdx : Nat) (pat : List Nat)
    (hd : alist CHORD_NUM_SCALE_INDEX d = some rootIdx)
    (hq : alist CHORD_PATTERNS q = some pat)
    (hlen : (scale tonic q).length = 8) :
    ∃ root n2 n4,
      (scale tonic q)[rootIdx]? = some root ∧
      chordTone (scale tonic q) rootIdx 2 = some n2 ∧
      chordTone (scale tonic q) rootIdx 4 = some n4 ∧
      build_chord scale tonic d q =
        .ok (((Chord.ofRoot root).add_note n2).add_note n4) := by
  have hr7 : rootIdx ≤ 7 := alist_num_le7 d rootIdx hd
  have hpat : pat = [2, 4] := alist_pat q pat hq
  subst hpat
  have hroot : rootIdx < (scale tonic q).length := by omega
  obtain ⟨n2, hn2⟩ := chordTone_some (scale tonic q) rootIdx 2 hlen hr7 (by omega)
  obtain ⟨n4, hn4⟩ := chordTone_some (scale tonic q) rootIdx 4 hlen hr7 (by omega)
  refine ⟨(scale tonic q)[rootIdx], n2, n4, List.getElem?_eq_getElem hroot, hn2, hn4, ?_⟩
  simp only [build_chord, hd, hq, List.getElem?_eq_getElem hroot]
  exact addTones_two (scale tonic q) rootIdx _ n2 n4 hn2 hn4

/-! ## Prefix helpers for the parse proofs -/

theorem prefix_cons_ne (p c : Char) (pr l : List Char) (h : p ≠ c) :
    (p :: pr).isPrefixOf (c :: l) = false := by
  simp [List.isPrefixOf_cons₂, h]

theorem isPrefixOf_cons_append (p : Char) (pr rest : List Char) :
    (p :: pr).isPrefixOf (p :: (pr ++ rest)) = true := by
  simp [List.isPrefixOf_cons₂, isPrefixOf_append_self]

theorem pyReplace_strip_cons (p : Char) (pr rest : List Char) (hp : p ∉ rest) :
    pyReplace (p :: pr) (p :: (pr ++ rest)) = rest := by
  have h := pyReplace_strip p pr rest hp
  simpa [List.cons_append] using h

/-! ## Claims -/

/-- C2: for every named quality and every integer size of at least 8,
`Interval.__init__` reduces the size to a base size by a first subtraction of
7 followed by repeated subtractions of 7 while the result stays at least 8;
the base size lies in `[1, 7]` and equals `((size - 1) mod 7) + 1`, and the
validity check is made on the pair of quality and base size rather than the
original size; in particular `Interval('dim', 13)` succeeds because `dim6`
is a valid combination. -/
theorem C2_compound_size_reduction :
    (∀ t ∈ NAMED_INTERVAL_TYPES, ∀ n : Nat, 8 ≤ n →
      baseSizeOf n = (n - 1) % 7 + 1 ∧ 1 ≤ baseSizeOf n ∧ baseSizeOf n ≤ 7 ∧
        (Interval.init t (n : Int) = .ok ⟨t, (n : Int)⟩ ↔
          (t ++ natStr (baseSizeOf n)) ∈ VALID_INTERVAL_TYPES)) ∧
    Interval.init ['d', 'i', 'm'] 13 = .ok ⟨['d', 'i', 'm'], 13⟩ ∧
    baseSizeOf 13 = 6 ∧
    (['d', 'i', 'm'] ++ natStr 6) ∈ VALID_INTERVAL_TYPES := by
  refine ⟨?_, by rfl, by rfl, by decide⟩
  intro t ht n hn
  have h1 : 1 ≤ n := by omega
  refine ⟨baseSizeOf_eq n h1, (baseSizeOf_bounds n h1).1, (baseSizeOf_bounds n h1).2, ?_⟩
  rw [Interval.init_ok_iff]
  simp only [Int.toNat_ofNat]
  constructor
  · rintro ⟨-, -, hm, -⟩
    exact hm
  · intro hm
    exact ⟨ht, by omega, hm, trivial⟩

theorem C2_witness :
    baseSizeOf 15 = (15 - 1) % 7 + 1 ∧ 1 ≤ baseSizeOf 15 ∧ baseSizeOf 15 ≤ 7 ∧
      (Interval.init ['d', 'i', 'm'] ((15 : Nat) : Int) =
          .ok ⟨['d', 'i', 'm'], ((15 : Nat) : Int)⟩ ↔
        (['d', 'i', 'm'] ++ natStr (baseSizeOf 15)) ∈ VALID_INTERVAL_TYPES) :=
  C2_compound_size_reduction.1 ['d', 'i', 'm'] (by decide) 15 (by omega)

/-- C5 counterexample: the claim says construction succeeds exactly when the
quality is named, the size is representable as a positive integer, and the
quality with the base size is in the valid-interval table — but for a string
size below 8 the source appends the ORIGINAL string (`str(size)`) to form the
table token, not the canonical rendering of the base size.  At
`Interval('M', '07')` every condition of the claim holds: `M` is named,
`int('07') = 7` is positive, and `M7` is in the table — yet the source forms
`'M07'`, which is not in the table, and raises `ValueError`. -/
theorem C5_counterexample :
    (['M'] : List Char) ∈ NAMED_INTERVAL_TYPES ∧
    pyInt ['0', '7'] = some 7 ∧ (0 : Int) < 7 ∧
    (['M'] ++ natStr (baseSizeOf (7 : Int).toNat)) ∈ VALID_INTERVAL_TYPES ∧
    Interval.initStr ['M'] ['0', '7'] = .error .valueError := by
  refine ⟨by decide, by rfl, by decide, by decide, by rfl⟩

/-- C5 (amended): integer-size construction succeeds exactly when the quality
is named, the size is positive, and the quality together with the base size
is in the 25-entry valid-interval table; string-size construction demands
that the string parses as a positive integer and checks the table against
the quality followed by the ORIGINAL string when the value is below 8 (so a
non-canonical rendering of a valid size, such as `'07'`, is rejected) and
against the canonical base-size rendering when the value is at least 8;
every other case is an error and no interval is produced.  The spec's
rejection examples `M5` and `m(-1)` are included. -/
theorem C5_construct_error_conditions :
    (∀ (t : List Char) (size : Int),
        (∃ i, Interval.init t size = .ok i) ↔
          t ∈ NAMED_INTERVAL_TYPES ∧ 0 < size ∧
            (t ++ natStr (baseSizeOf size.toNat)) ∈ VALID_INTERVAL_TYPES) ∧
    (∀ (t : List Char) (size : Int) (i : Interval),
        Interval.init t size = .ok i → i = ⟨t, size⟩) ∧
    (∀ (t sizeStr : List Char),
        (∃ i, Interval.initStr t sizeStr = .ok i) ↔
          t ∈ NAMED_INTERVAL_TYPES ∧ ∃ n : Int, pyInt sizeStr = some n ∧
            '.' ∉ sizeStr ∧ 0 < n ∧
            (if 8 ≤ n then t ++ natStr (baseSizeOf n.toNat) else t ++ sizeStr)
              ∈ VALID_INTERVAL_TYPES) ∧
    VALID_INTERVAL_TYPES.length = 25 ∧
    Interval.init ['M'] 5 = .error .valueError ∧
    Interval.init ['m'] (-1) = .error .valueError := by
  refine ⟨?_, ?_, ?_, by rfl, by rfl, by rfl⟩
  · intro t size
    constructor
    · rintro ⟨i, hi⟩
      obtain ⟨h1, h2, h3, -⟩ := (Interval.init_ok_iff t size i).mp hi
      exact ⟨h1, h2, h3⟩
    · rintro ⟨h1, h2, h3⟩
      exact ⟨⟨t, size⟩, (Interval.init_ok_iff t size ⟨t, size⟩).mpr ⟨h1, h2, h3, rfl⟩⟩
  · intro t size i hi
    exact ((Interval.init_ok_iff t size i).mp hi).2.2.2
  · intro t sizeStr
    constructor
    · rintro ⟨i, hi⟩
      obtain ⟨h1, n, hn, hdot, h0, hv, -⟩ := (initStr_ok_iff t sizeStr i).mp hi
      exact ⟨h1, n, hn, hdot, h0, hv⟩
    · rintro ⟨h1, n, hn, hdot, h0, hv⟩
      exact ⟨⟨t, n⟩, (initStr_ok_iff t sizeStr ⟨t, n⟩).mpr ⟨h1, n, hn, hdot, h0, hv, rfl⟩⟩

theorem C5_witness : ∃ i, Interval.init ['P'] 5 = .ok i :=
  (C5_construct_error_conditions.1 ['P'] 5).mpr ⟨by decide, by decide, by decide⟩

/-- C8: formatting renders the original size, not the reduced base:
`Interval('dim', 13)` succeeds, its validity rests on the same base-size
check as `Interval('dim', 6)`, and `str` of it is the quality followed by
the decimal rendering of the original size, `dim13`. -/
theorem C8_format_renders_original_size :
    (∀ (t : List Char) (size : Int) (i : Interval),
        Interval.init t size = .ok i → Interval.str i = t ++ intStr size) ∧
    Interval.init ['d', 'i', 'm'] 13 = .ok ⟨['d', 'i', 'm'], 13⟩ ∧
    Interval.str ⟨['d', 'i', 'm'], 13⟩ = ['d', 'i', 'm', '1', '3'] ∧
    baseSizeOf 13 = baseSizeOf 6 ∧
    (∃ i, Interval.init ['d', 'i', 'm'] 6 = .ok i) := by
  refine ⟨?_, by rfl, by rfl, by rfl, ⟨⟨['d', 'i', 'm'], 6⟩, by rfl⟩⟩
  intro t size i hi
  obtain ⟨-, -, -, rfl⟩ := (Interval.init_ok_iff t size i).mp hi
  rfl

theorem C8_witness :
    Interval.str ⟨['d', 'i', 'm'], 13⟩ = ['d', 'i', 'm'] ++ intStr 13 :=
  C8_format_renders_original_size.1 ['d', 'i', 'm'] 13 ⟨['d', 'i', 'm'], 13⟩ (by rfl)

/-- C4: for every pair accepted by the constructor, parsing the formatted
string gives back an interval with the same quality and size. -/
theorem C4_parse_format_roundtrip (t : List Char) (size : Int) (i : Interval)
    (h : Interval.init t size = .ok i) :
    Interval.from_interval_string (Interval.str i) = .ok i := by
  obtain ⟨h1, h2, hv, rfl⟩ := (Interval.init_ok_iff t size i).mp h
  obtain ⟨hne, hdg, -⟩ := natStr_spec size.toNat
  have hdig : ∀ c : Char, c.isDigit = false → c ∉ natStr size.toNat := by
    intro c hc hmem
    rw [hdg c hmem] at hc
    cases hc
  have hstr : Interval.str ⟨t, size⟩ = t ++ natStr size.toNat := by
    show t ++ intStr size = t ++ natStr size.toNat
    unfold intStr
    rw [if_neg (by omega)]
  rw [hstr]
  have hback := initStr_natStr t size h2
  have h5 : t = ['M'] ∨ t = ['m'] ∨ t = ['P'] ∨
      t = ['d', 'i', 'm'] ∨ t = ['a', 'u', 'g'] := by
    simpa [NAMED_INTERVAL_TYPES] using h1
  unfold Interval.from_interval_string NAMED_INTERVAL_TYPES
  rcases h5 with rfl | rfl | rfl | rfl | rfl
  · simp only [List.cons_append, List.nil_append]
    have hpre := isPrefixOf_cons_append 'M' [] (natStr size.toNat)
    rw [List.nil_append] at hpre
    have hrep := pyReplace_strip_cons 'M' [] (natStr size.toNat) (hdig 'M' (by decide))
    rw [List.nil_append] at hrep
    rw [findIntervalType, if_pos hpre, hrep, hback]
    exact h
  · simp only [List.cons_append, List.nil_append]
    have hM : (['M'] : List Char).isPrefixOf ('m' :: natStr size.toNat) = false :=
      prefix_cons_ne 'M' 'm' [] (natStr size.toNat) (by decide)
    have hpre := isPrefixOf_cons_append 'm' [] (natStr size.toNat)
    rw [List.nil_append] at hpre
    have hrep := pyReplace_strip_cons 'm' [] (natStr size.toNat) (hdig 'm' (by decide))
    rw [List.nil_append] at hrep
    rw [findIntervalType, if_neg (by simp [hM]), findIntervalType, if_pos hpre, hrep, hback]
    exact h
  · simp only [List.cons_append, List.nil_append]
    have hM : (['M'] : List Char).isPrefixOf ('P' :: natStr size.toNat) = false :=
      prefix_cons_ne 'M' 'P' [] (natStr size.toNat) (by decide)
    have hm : (['m'] : List Char).isPrefixOf ('P' :: natStr size.toNat) = false :=
      prefix_cons_ne 'm' 'P' [] (natStr size.toNat) (by decide)
    have hpre := isPrefixOf_cons_append 'P' [] (natStr size.toNat)
    rw [List.nil_append] at hpre
    have hrep := pyReplace_strip_cons 'P' [] (natStr size.toNat) (hdig 'P' (by decide))
    rw [List.nil_append] at hrep
    rw [findIntervalType, if_neg (by simp [hM]), findIntervalType, if_neg (by simp [hm]),
      findIntervalType, if_pos hpre, hrep, hback]
    exact h
  · simp only [List.cons_append, List.nil_append]
    have hM : (['M'] : List Char).isPrefixOf ('d' :: 'i' :: 'm' :: natStr size.toNat) = false :=
      prefix_cons_ne 'M' 'd' [] ('i' :: 'm' :: natStr size.toNat) (by decide)
    have hm : (['m'] : List Char).isPrefixOf ('d' :: 'i' :: 'm' :: natStr size.toNat) = false :=
      prefix_cons_ne 'm' 'd' [] ('i' :: 'm' :: natStr size.toNat) (by decide)
    have hP : (['P'] : List Char).isPrefixOf ('d' :: 'i' :: 'm' :: natStr size.toNat) = false :=
      prefix_cons_ne 'P' 'd' [] ('i' :: 'm' :: natStr size.toNat) (by decide)
    have hpre := isPrefixOf_cons_append 'd' ['i', 'm'] (natStr size.toNat)
    rw [List.cons_append, List.cons_append, List.nil_append] at hpre
    have hrep := pyReplace_strip_cons 'd' ['i', 'm'] (natStr size.toNat) (hdig 'd' (by decide))
    rw [List.cons_append, List.cons_append, List.nil_append] at hrep
    rw [findIntervalType, if_neg (by simp [hM]), findIntervalType, if_neg (by simp [hm]),
      findIntervalType, if_neg (by simp [hP]), findIntervalType, if_pos hpre, hrep, hback]
    exact h
  · simp only [List.cons_append, List.nil_append]
    have hM : (['M'] : List Char).isPrefixOf ('a' :: 'u' :: 'g' :: natStr size.toNat) = false :=
      prefix_cons_ne 'M' 'a' [] ('u' :: 'g' :: natStr size.toNat) (by decide)
    have hm : (['m'] : List Char).isPrefixOf ('a' :: 'u' :: 'g' :: natStr size.toNat) = false :=
      prefix_cons_ne 'm' 'a' [] ('u' :: 'g' :: natStr size.toNat) (by decide)
    have hP : (['P'] : List Char).isPrefixOf ('a' :: 'u' :: 'g' :: natStr size.toNat) = false :=
      prefix_cons_ne 'P' 'a' [] ('u' :: 'g' :: natStr size.toNat) (by decide)
    have hD : (['d', 'i', 'm'] : List Char).isPrefixOf
        ('a' :: 'u' :: 'g' :: natStr size.toNat) = false :=
      prefix_cons_ne 'd' 'a' ['i', 'm'] ('u' :: 'g' :: natStr size.toNat) (by decide)
    have hpre := isPrefixOf_cons_append 'a' ['u', 'g'] (natStr size.toNat)
    rw [List.cons_append, List.cons_append, List.nil_append] at hpre
    have hrep := pyReplace_strip_cons 'a' ['u', 'g'] (natStr size.toNat) (hdig 'a' (by decide))
    rw [List.cons_append, List.cons_append, List.nil_append] at hrep
    rw [findIntervalType, if_neg (by simp [hM]), findIntervalType, if_neg (by simp [hm]),
      findIntervalType, if_neg (by simp [hP]), findIntervalType, if_neg (by simp [hD]),
      findIntervalType, if_pos hpre, hrep, hback]
    exact h

theorem C4_witness :
    Interval.from_interval_string (Interval.str ⟨['d', 'i', 'm'], 13⟩) =
      .ok ⟨['d', 'i', 'm'], 13⟩ :=
  C4_parse_format_roundtrip ['d', 'i', 'm'] 13 ⟨['d', 'i', 'm'], 13⟩ (by rfl)

/-- C6 counterexample: the claim says parsing succeeds only when the token is
a known prefix followed by a remainder that is a valid size, but the source
removes ALL occurrences of the matched prefix (`str.replace`), not just the
leading one.  The token `M2M` parses successfully as the interval `M2`, even
though the remainder after stripping the prefix, `2M`, is not a valid size
(construction from it fails with a `TypeError`). -/
theorem C6_counterexample :
    Interval.from_interval_string ['M', '2', 'M'] = .ok ⟨['M'], 2⟩ ∧
    pyReplace ['M'] ['M', '2', 'M'] = ['2'] ∧
    Interval.initStr ['M'] ['2', 'M'] = .error .typeError := by
  refine ⟨by rfl, by rfl, by rfl⟩

/-- C6 (amended): `from_interval_string` succeeds only when some named
quality is a prefix of the token and the constructor succeeds on that quality
paired with the token after removal of ALL occurrences of the quality
(`str.replace`), not merely the suffix after the prefix; when no quality
prefix matches, it raises; `Mbutts` still raises because `butts` does not
parse as an integer. -/
theorem C6_parse_prefix_replace :
    (∀ (s : List Char) (i : Interval),
        Interval.from_interval_string s = .ok i →
          ∃ t, t ∈ NAMED_INTERVAL_TYPES ∧ t.isPrefixOf s = true ∧
            Interval.initStr t (pyReplace t s) = .ok i) ∧
    (∀ s : List Char, (∀ t ∈ NAMED_INTERVAL_TYPES, t.isPrefixOf s = false) →
        Interval.from_interval_string s = .error .valueError) ∧
    Interval.from_interval_string ['M', 'b', 'u', 't', 't', 's'] =
      .error .typeError := by
  refine ⟨?_, ?_, by rfl⟩
  · intro s i h
    simp only [Interval.from_interval_string, NAMED_INTERVAL_TYPES,
      findIntervalType] at h
    split_ifs at h with p1 p2 p3 p4 p5
    · exact ⟨['M'], by decide, p1, h⟩
    · exact ⟨['m'], by decide, p2, h⟩
    · exact ⟨['P'], by decide, p3, h⟩
    · exact ⟨['d', 'i', 'm'], by decide, p4, h⟩
    · exact ⟨['a', 'u', 'g'], by decide, p5, h⟩
  · intro s hall
    have h1 := hall ['M'] (by decide)
    have h2 := hall ['m'] (by decide)
    have h3 := hall ['P'] (by decide)
    have h4 := hall ['d', 'i', 'm'] (by decide)
    have h5 := hall ['a', 'u', 'g'] (by decide)
    simp only [Interval.from_interval_string, NAMED_INTERVAL_TYPES, findIntervalType,
      h1, h2, h3, h4, h5, Bool.false_eq_true, if_false]

theorem C6_witness :
    ∃ t, t ∈ NAMED_INTERVAL_TYPES ∧
      t.isPrefixOf (['M', '3'] : List Char) = true ∧
      Interval.initStr t (pyReplace t ['M', '3']) = .ok ⟨['M'], 3⟩ :=
  C6_parse_prefix_replace.1 ['M', '3'] ⟨['M'], 3⟩ (by rfl)

/-- C1: for every tonic, every degree token in the table and every quality
token in the table, assuming the scale collaborator returns 8 notes,
`build_chord` looks up the root at the degree index, and for each offset in
the pattern tuple `(2, 4)` wraps indices beyond 7 back by 7 while raising the
octave by one, then returns a chord consisting of the root plus the two notes
so constructed (the chord stores them in sorted order, hence a
permutation). -/
theorem C1_build_chord_tones (scale : Note → List Char → List Note) (tonic : Note)
    (d q : List Char) (rootIdx : Nat) (pat : List Nat)
    (hd : alist CHORD_NUM_SCALE_INDEX d = some rootIdx)
    (hq : alist CHORD_PATTERNS q = some pat)
    (hlen : (scale tonic q).length = 8) :
    pat = [2, 4] ∧
    (∀ off : Nat, chordTone (scale tonic q) rootIdx off =
        ((scale tonic q)[if 7 < rootIdx + off then rootIdx + off - 7
            else rootIdx + off]?).map
          (fun nn => ⟨nn.pitch, nn.octave + (if 7 < rootIdx + off then 1 else 0),
            nn.accidental⟩)) ∧
    ∃ c root n2 n4,
      build_chord scale tonic d q = .ok c ∧
      (scale tonic q)[rootIdx]? = some root ∧
      chordTone (scale tonic q) rootIdx 2 = some n2 ∧
      chordTone (scale tonic q) rootIdx 4 = some n4 ∧
      c.notes.Perm [root, n2, n4] := by
  refine ⟨alist_pat q pat hq, ?_, ?_⟩
  · intro off
    simp only [chordTone, hlen]
  · obtain ⟨root, n2, n4, hroot, h2, h4, hb⟩ :=
      build_chord_ok scale tonic d q rootIdx pat hd hq hlen
    refine ⟨_, root, n2, n4, hb, hroot, h2, h4, ?_⟩
    have hnotes : (((Chord.ofRoot root).add_note n2).add_note n4).notes
        = addNoteList n4 (addNoteList n2 [root]) := rfl
    rw [hnotes]
    have p3 : (addNoteList n4 (addNoteList n2 [root])).Perm (n4 :: n2 :: [root]) :=
      (addNoteList_perm n4 (addNoteList n2 [root])).trans
        ((addNoteList_perm n2 [root]).cons n4)
    exact p3.trans (List.reverse_perm [root, n2, n4])

theorem C1_witness :
    ∃ c, build_chord
        (fun _ _ => [⟨'C', 4, none⟩, ⟨'D', 4, none⟩, ⟨'E', 4, none⟩, ⟨'F', 4, none⟩,
          ⟨'G', 4, none⟩, ⟨'A', 4, none⟩, ⟨'B', 4, none⟩, ⟨'C', 5, none⟩])
        ⟨'C', 4, none⟩ ['I'] ['m', 'a', 'j', 'o', 'r'] = .ok c := by
  obtain ⟨-, -, c, root, n2, n4, hc, -⟩ :=
    C1_build_chord_tones
      (fun _ _ => [⟨'C', 4, none⟩, ⟨'D', 4, none⟩, ⟨'E', 4, none⟩, ⟨'F', 4, none⟩,
        ⟨'G', 4, none⟩, ⟨'A', 4, none⟩, ⟨'B', 4, none⟩, ⟨'C', 5, none⟩])
      ⟨'C', 4, none⟩ ['I'] ['m', 'a', 'j', 'o', 'r'] 0 [2, 4] rfl rfl rfl
  exact ⟨c, hc⟩

/-- C3: every chord is nonempty (structurally, by construction); the
constructor produces exactly one note; and for every chord whose notes are
sorted by pitch, adding a note yields a permutation of the old notes plus
the new one, keeps the notes sorted, and keeps `root()` (the first element)
a lowest-pitch note. -/
theorem C3_chord_sorted_invariant :
    (∀ n : Note, (Chord.ofRoot n).notes = [n]) ∧
    (∀ c : Chord, c.notes ≠ []) ∧
    (∀ (c : Chord) (x : Note), List.Pairwise noteLe c.notes →
        (c.add_note x).notes.Perm (x :: c.notes) ∧
        List.Pairwise noteLe (c.add_note x).notes ∧
        ∀ y ∈ (c.add_note x).notes, noteLe ((c.add_note x).root) y) := by
  refine ⟨fun n => rfl, fun c => c.ne, ?_⟩
  intro c x hs
  have hnotes : (c.add_note x).notes = addNoteList x c.notes := rfl
  have hpair : List.Pairwise noteLe (c.add_note x).notes := by
    rw [hnotes]
    exact addNoteList_pairwise x c.notes hs
  refine ⟨?_, hpair, ?_⟩
  · rw [hnotes]
    exact addNoteList_perm x c.notes
  · exact sorted_head_le (c.add_note x).notes (c.add_note x).ne hpair

theorem C3_witness :
    ((Chord.ofRoot ⟨'C', 4, none⟩).add_note ⟨'E', 4, none⟩).notes.Perm
        (⟨'E', 4, none⟩ :: (Chord.ofRoot ⟨'C', 4, none⟩).notes) ∧
      List.Pairwise noteLe
        ((Chord.ofRoot ⟨'C', 4, none⟩).add_note ⟨'E', 4, none⟩).notes ∧
      ∀ y ∈ ((Chord.ofRoot ⟨'C', 4, none⟩).add_note ⟨'E', 4, none⟩).notes,
        noteLe (((Chord.ofRoot ⟨'C', 4, none⟩).add_note ⟨'E', 4, none⟩).root) y :=
  C3_chord_sorted_invariant.2.2 (Chord.ofRoot ⟨'C', 4, none⟩) ⟨'E', 4, none⟩
    (by decide)

/-- C7: `build_chord` rejects a degree token that is not a key of the
degree table and a quality token that is not a key of the pattern table
(`IX` and `dorian` among them); both checks happen before the scale
collaborator is consulted, so the result does not depend on the scale
function and no chord is built.  The check that the tonic is a `Note` is
discharged statically by the embedding's types. -/
theorem C7_build_chord_rejections :
    (∀ (scale : Note → List Char → List Note) (tonic : Note) (d q : List Char),
        alist CHORD_NUM_SCALE_INDEX d = none →
          build_chord scale tonic d q = .error .valueError) ∧
    (∀ (scale : Note → List Char → List Note) (tonic : Note) (d q : List Char)
        (k : Nat),
        alist CHORD_NUM_SCALE_INDEX d = some k →
          alist CHORD_PATTERNS q = none →
          build_chord scale tonic d q = .error .valueError) ∧
    (∀ (scale scale' : Note → List Char → List Note) (tonic tonic' : Note)
        (d q : List Char),
        alist CHORD_NUM_SCALE_INDEX d = none ∨ alist CHORD_PATTERNS q = none →
          build_chord scale tonic d q = build_chord scale' tonic' d q) ∧
    alist CHORD_NUM_SCALE_INDEX ['I', 'X'] = none ∧
    alist CHORD_PATTERNS ['d', 'o', 'r', 'i', 'a', 'n'] = none := by
  refine ⟨?_, ?_, ?_, by rfl, by rfl⟩
  · intro scale tonic d q hd
    simp only [build_chord, hd]
  · intro scale tonic d q k hd hq
    simp only [build_chord, hd, hq]
  · intro scale scale' tonic tonic' d q h
    rcases h with hd | hq
    · simp only [build_chord, hd]
    · cases hd : alist CHORD_NUM_SCALE_INDEX d with
      | none => simp only [build_chord, hd]
      | some k => simp only [build_chord, hd, hq]

theorem C7_witness :
    build_chord (fun _ _ => []) ⟨'C', 4, none⟩ ['I', 'X'] ['m', 'a', 'j'] =
      .error .valueError :=
  C7_build_chord_rejections.1 (fun _ _ => []) ⟨'C', 4, none⟩ ['I', 'X']
    ['m', 'a', 'j'] (by rfl)

/-- C9: for every degree token (indices 0 through 7) and quality token
(offsets `(2, 4)`), assuming the scale has exactly 8 notes, every index used
to read the scale stays in `[0, 7]`: the root index is at most 7, each offset
index is at most 11 before wrapping and at most 4 after subtracting 7, so
`build_chord` succeeds without an out-of-range access. -/
theorem C9_scale_index_safety (scale : Note → List Char → List Note) (tonic : Note)
    (d q : List Char) (rootIdx : Nat) (pat : List Nat)
    (hd : alist CHORD_NUM_SCALE_INDEX d = some rootIdx)
    (hq : alist CHORD_PATTERNS q = some pat)
    (hlen : (scale tonic q).length = 8) :
    rootIdx ≤ 7 ∧
    (∀ off ∈ pat, rootIdx + off ≤ 11 ∧
        (if 7 < rootIdx + off then rootIdx + off - 7 ≤ 4 else rootIdx + off ≤ 7)) ∧
    ∃ c, build_chord scale tonic d q = .ok c := by
  have hr := alist_num_le7 d rootIdx hd
  have hp := alist_pat q pat hq
  subst hp
  refine ⟨hr, ?_, ?_⟩
  · intro off hoff
    have hoff2 : off = 2 ∨ off = 4 := by simpa using hoff
    rcases hoff2 with rfl | rfl <;> refine ⟨by omega, ?_⟩ <;> split <;> omega
  · obtain ⟨root, n2, n4, -, -, -, hb⟩ :=
      build_chord_ok scale tonic d q rootIdx [2, 4] hd hq hlen
    exact ⟨_, hb⟩

theorem C9_witness :
    ∃ c, build_chord
        (fun _ _ => [⟨'C', 4, none⟩, ⟨'D', 4, none⟩, ⟨'E', 4, none⟩, ⟨'F', 4, none⟩,
          ⟨'G', 4, none⟩, ⟨'A', 4, none⟩, ⟨'B', 4, none⟩, ⟨'C', 5, none⟩])
        ⟨'C', 4, none⟩ ['V'] ['m', 'i', 'n', 'o', 'r'] = .ok c :=
  (C9_scale_index_safety
      (fun _ _ => [⟨'C', 4, none⟩, ⟨'D', 4, none⟩, ⟨'E', 4, none⟩, ⟨'F', 4, none⟩,
        ⟨'G', 4, none⟩, ⟨'A', 4, none⟩, ⟨'B', 4, none⟩, ⟨'C', 5, none⟩])
      ⟨'C', 4, none⟩ ['V'] ['m', 'i', 'n', 'o', 'r'] 4 [2, 4] rfl rfl rfl).2.2

/-- C10: on a chord whose notes are sorted by pitch, adding a note whose
pitch compares equal to an existing note places the new note immediately
after the last existing equal-pitch note: equal-pitch notes preserve
insertion order (a stable tie-break). -/
theorem C10_equal_pitch_tiebreak (c : Chord) (x e : Note) (l1 l2 : List Note)
    (hs : List.Pairwise noteLe c.notes)
    (hsplit : c.notes = l1 ++ e :: l2)
    (he : noteVal e = noteVal x)
    (hl2 : ∀ y ∈ l2, noteVal y ≠ noteVal x) :
    (c.add_note x).notes = l1 ++ e :: x :: l2 := by
  have hnotes : (c.add_note x).notes = addNoteList x c.notes := rfl
  rw [hnotes, addNoteList_eq_take_drop, hsplit]
  rw [hsplit] at hs
  have hl1 : ∀ z ∈ l1, pLe x z = true := by
    intro z hz
    rw [pLe_iff]
    have hze : noteLe z e :=
      (List.pairwise_append.mp hs).2.2 z hz e (List.mem_cons_self e l2)
    exact le_trans hze (le_of_eq he)
  have hl2f : ∀ y ∈ l2, pLe x y = false := by
    intro y hy
    rw [pLe_false_iff]
    have hey : noteLe e y :=
      (List.pairwise_cons.mp (List.pairwise_append.mp hs).2.1).1 y hy
    have hxy : noteVal x ≤ noteVal y := le_trans (le_of_eq he.symm) hey
    exact lt_of_le_of_ne hxy (fun heq => hl2 y hy heq.symm)
  have hpe : pLe x e = true := by
    rw [pLe_iff]
    exact le_of_eq he
  rw [List.takeWhile_append_of_pos hl1, List.dropWhile_append_of_pos hl1,
    List.takeWhile_cons_of_pos hpe, List.dropWhile_cons_of_pos hpe]
  have ht2 : l2.takeWhile (pLe x) = [] := by
    cases l2 with
    | nil => rfl
    | cons y ys =>
      rw [List.takeWhile_cons_of_neg]
      rw [hl2f y (List.mem_cons_self y ys)]
      simp
  have hd2 : l2.dropWhile (pLe x) = l2 := by
    cases l2 with
    | nil => rfl
    | cons y ys =>
      rw [List.dropWhile_cons_of_neg]
      rw [hl2f y (List.mem_cons_self y ys)]
      simp
  rw [ht2, hd2]
  simp

theorem C10_witness :
    ((⟨[⟨'C', 4, none⟩, ⟨'E', 4, none⟩], by simp⟩ : Chord).add_note
        ⟨'F', 4, some ['b']⟩).notes =
      [⟨'C', 4, none⟩] ++ ⟨'E', 4, none⟩ :: ⟨'F', 4, some ['b']⟩ :: [] :=
  C10_equal_pitch_tiebreak ⟨[⟨'C', 4, none⟩, ⟨'E', 4, none⟩], by simp⟩
    ⟨'F', 4, some ['b']⟩ ⟨'E', 4, none⟩ [⟨'C', 4, none⟩] []
    (by decide) rfl (by decide) (by simp)

end MusicEssentials
